import Mathlib

/-!
Verification of the Uno NLP solver's algorithmic core against its
natural-language specification.

The development shallowly embeds, in exact (rational / real) arithmetic, the
routines of:
  - uno/ingredients/subproblem/interior_point/PrimalDualInteriorPointSubproblem.cpp
  - uno/ingredients/subproblem/inequality_constrained_methods/InequalityConstrainedMethod.cpp
  - uno/ingredients/inequality_handling_methods/InequalityHandlingMethodFactory.cpp
  - src/base/subproblem/ActiveSetMethod.cpp

Conventions of the embedding:
  - doubles are modelled as rationals (ℚ), except where the code calls
    std::sqrt, which is modelled over ℝ with Real.sqrt;
  - a possibly-infinite bound is an `Option ℚ` (`none` = that side is infinite);
  - the per-problem index lists (lower_bounded_variables, ...) are carried as
    explicit `List ℕ` fields, exactly as the C++ code iterates over
    precomputed index vectors;
  - a C++ loop that updates each listed index independently is rendered as a
    pointwise function update guarded by list membership (updates at distinct
    indices are independent, and re-clamping an already clamped value is the
    identity, so this agrees with the sequential loop);
  - loops that accumulate a scalar (the fraction-to-boundary factors, the
    infinity norm) are rendered as the corresponding `List.foldl`.
-/

/-- Data of a `NonlinearProblem` as used by the barrier subproblem:
dimension, variable bounds (`none` encodes an infinite bound) and the
precomputed index lists of bounded variables
(cf. uno/reformulation/NonlinearProblem.hpp). -/
structure Problem where
  n : ℕ
  var_lb : ℕ → Option ℚ
  var_ub : ℕ → Option ℚ
  lower_bounded : List ℕ
  upper_bounded : List ℕ

/-- The value of `get_variable_lower_bound(i)`; only meaningful at indices
where the bound is finite (the code only reads it at such indices). -/
def lbVal (p : Problem) (i : ℕ) : ℚ := (p.var_lb i).getD 0

/-- The value of `get_variable_upper_bound(i)`; only meaningful at indices
where the bound is finite. -/
def ubVal (p : Problem) (i : ℕ) : ℚ := (p.var_ub i).getD 0

/-- An `Iterate`: primal values and the three multiplier vectors. -/
structure Iterate where
  primals : ℕ → ℚ
  mult_constraints : ℕ → ℚ
  mult_lower : ℕ → ℚ
  mult_upper : ℕ → ℚ

/-- `PrimalDualInteriorPointSubproblem::relax_variable_bounds`: the two loops
test closeness of the iterate to its bounds, but both `if` bodies are empty in
the source, so the problem's bounds are returned unchanged. -/
def relax_variable_bounds (p : Problem) (x : ℕ → ℚ) (mu machine_epsilon : ℚ) : Problem :=
  let p1 := p.lower_bounded.foldl
    (fun q i => if x i - lbVal q i < machine_epsilon * mu then q else q) p
  p.upper_bounded.foldl
    (fun q i => if ubVal q i - x i < machine_epsilon * mu then q else q) p1

/-- A fold over the listed if-guarded `min` updates shared by
`primal_fraction_to_boundary` and `dual_fraction_to_boundary`. -/
def boundary_fold (trial : ℕ → ℚ) (cond : ℕ → Bool) (l : List ℕ) (init : ℚ) : ℚ :=
  l.foldl (fun len i => if cond i then (if 0 < trial i then min len (trial i) else len) else len)
    init

/-- `PrimalDualInteriorPointSubproblem::primal_fraction_to_boundary`:
largest admissible primal step factor, starting from 1 and taking `min` with
each positive trial value `-tau*(x_i - bound_i)/sol_i`. -/
def primal_fraction_to_boundary (p : Problem) (x sol : ℕ → ℚ) (tau : ℚ) : ℚ :=
  let after_lower := boundary_fold (fun i => -tau * (x i - lbVal p i) / sol i)
    (fun i => decide (sol i < 0)) p.lower_bounded 1
  boundary_fold (fun i => -tau * (x i - ubVal p i) / sol i)
    (fun i => decide (0 < sol i)) p.upper_bounded after_lower

/-- `PrimalDualInteriorPointSubproblem::dual_fraction_to_boundary`:
largest admissible bound-dual step factor. -/
def dual_fraction_to_boundary (p : Problem) (zL zU dzL dzU : ℕ → ℚ) (tau : ℚ) : ℚ :=
  let after_lower := boundary_fold (fun i => -tau * zL i / dzL i)
    (fun i => decide (dzL i < 0)) p.lower_bounded 1
  boundary_fold (fun i => -tau * zU i / dzU i)
    (fun i => decide (0 < dzU i)) p.upper_bounded after_lower

/-- `PrimalDualInteriorPointSubproblem::push_variable_to_interior`.
The C++ routine computes, with doubles,
  perturbation_lb = min(k1*max(1,|lb|), k2*(ub-lb)),
  perturbation_ub = min(k1*max(1,|ub|), k2*(ub-lb)),
  value = min(max(value, lb + perturbation_lb), ub - perturbation_ub).
When one bound is infinite the corresponding `min`/`max` operand evaluates to
an infinity or a NaN; `std::min`/`std::max` then leave the value unchanged on
that side, so only the finite side pushes. The `Option` match below realizes
exactly that effective arithmetic. -/
def push_variable_to_interior (variable_value : ℚ) (lb ub : Option ℚ) (k1 k2 : ℚ) : ℚ :=
  match lb, ub with
  | some l, some u =>
      let range := u - l
      let perturbation_lb := min (k1 * max 1 |l|) (k2 * range)
      let perturbation_ub := min (k1 * max 1 |u|) (k2 * range)
      min (max variable_value (l + perturbation_lb)) (u - perturbation_ub)
  | some l, none => max variable_value (l + k1 * max 1 |l|)
  | none, some u => min variable_value (u - k1 * max 1 |u|)
  | none, none => variable_value

/-- `PrimalDualInteriorPointSubproblem::initialize`: push every primal into
the interior of its bounds, overwrite each slack variable with the pushed
value of its constraint, set the bound multipliers to `±default_multiplier`,
and (for constrained problems) replace the constraint multipliers by
least-squares estimates.  The least-squares computation lives in
`Preprocessing` (outside the embedded sources) and is passed in abstractly as
`lsq_multipliers`.  `slacks` is the list of pairs (constraint j, slack index). -/
def initialize_iterate (p : Problem) (k1 k2 default_multiplier : ℚ)
    (slacks : List (ℕ × ℕ)) (constraints : ℕ → ℚ)
    (is_constrained : Bool) (lsq_multipliers : ℕ → ℚ) (first_iterate : Iterate) : Iterate :=
  let pushed : ℕ → ℚ := fun i =>
    if i < p.n then push_variable_to_interior (first_iterate.primals i) (p.var_lb i) (p.var_ub i) k1 k2
    else first_iterate.primals i
  let with_slacks : ℕ → ℚ := slacks.foldl
    (fun x js => Function.update x js.2
      (push_variable_to_interior (constraints js.1) (p.var_lb js.2) (p.var_ub js.2) k1 k2))
    pushed
  { primals := with_slacks
    mult_constraints := fun j => if is_constrained then lsq_multipliers j else first_iterate.mult_constraints j
    mult_lower := fun i => if i ∈ p.lower_bounded then default_multiplier else first_iterate.mult_lower i
    mult_upper := fun i => if i ∈ p.upper_bounded then -default_multiplier else first_iterate.mult_upper i }

/-- `PrimalDualInteriorPointSubproblem::postprocess_iterate` (Eq. 16 in the
IPOPT paper): clamp each lower-bound multiplier into
`[coefficient/k_sigma, coefficient*k_sigma]` with
`coefficient = mu/(x_i - lb_i)`, and each upper-bound multiplier into
`[coefficient*k_sigma, coefficient/k_sigma]` with
`coefficient = mu/(x_i - ub_i)`; when the interval is in the wrong order the
multiplier is left unchanged (the code emits a warning).  The C++ loops
update each listed index independently, rendered here pointwise. -/
def postprocess_iterate (p : Problem) (mu k_sigma : ℚ) (iterate : Iterate) : Iterate :=
  { iterate with
    mult_lower := fun i =>
      if i ∈ p.lower_bounded then
        if mu / (iterate.primals i - lbVal p i) / k_sigma
            ≤ mu / (iterate.primals i - lbVal p i) * k_sigma then
          max (min (iterate.mult_lower i) (mu / (iterate.primals i - lbVal p i) * k_sigma))
            (mu / (iterate.primals i - lbVal p i) / k_sigma)
        else iterate.mult_lower i
      else iterate.mult_lower i
    mult_upper := fun i =>
      if i ∈ p.upper_bounded then
        if mu / (iterate.primals i - ubVal p i) * k_sigma
            ≤ mu / (iterate.primals i - ubVal p i) / k_sigma then
          max (min (iterate.mult_upper i) (mu / (iterate.primals i - ubVal p i) / k_sigma))
            (mu / (iterate.primals i - ubVal p i) * k_sigma)
        else iterate.mult_upper i
      else iterate.mult_upper i }

/-- The interior-point iterate invariant stated by the spec: primals strictly
inside every finite bound, nonnegative lower-bound multipliers and
nonpositive upper-bound multipliers on the bounded indices. -/
def strictly_interior (p : Problem) (iterate : Iterate) : Prop :=
  (∀ i ∈ p.lower_bounded, lbVal p i < iterate.primals i) ∧
  (∀ i ∈ p.upper_bounded, iterate.primals i < ubVal p i) ∧
  (∀ i ∈ p.lower_bounded, 0 ≤ iterate.mult_lower i) ∧
  (∀ i ∈ p.upper_bounded, iterate.mult_upper i ≤ 0)

instance (p : Problem) (iterate : Iterate) : Decidable (strictly_interior p iterate) := by
  unfold strictly_interior
  infer_instance

/- ### The subproblem-strategy factory -/

/-- The subproblem strategies that `InequalityHandlingMethodFactory::create`
can instantiate. -/
inductive InequalityHandlingMethod where
  | QPSubproblem
  | LPSubproblem
  | PrimalDualInteriorPointMethod
deriving DecidableEq

/-- `InequalityHandlingMethodFactory::create`: dispatch on the `subproblem`
option string; an unrecognized string throws `std::invalid_argument`,
modelled by `Except.error`. -/
def InequalityHandlingMethodFactory_create (subproblem_strategy : String) :
    Except String InequalityHandlingMethod :=
  if subproblem_strategy = "QP" then
    Except.ok InequalityHandlingMethod.QPSubproblem
  else if subproblem_strategy = "LP" then
    Except.ok InequalityHandlingMethod.LPSubproblem
  else if subproblem_strategy = "primal_dual_interior_point" then
    Except.ok InequalityHandlingMethod.PrimalDualInteriorPointMethod
  else
    Except.error ("Subproblem strategy " ++ subproblem_strategy ++ " is not supported")

/- ### Theorems -/

/-- A fold of guarded `min` steps never exceeds its initial value. -/
theorem boundary_fold_le_init (t : ℕ → ℚ) (c : ℕ → Bool) (l : List ℕ) (init : ℚ) :
    boundary_fold t c l init ≤ init := by
  induction l generalizing init with
  | nil => exact le_refl _
  | cons i l ih =>
    have step : boundary_fold t c (i :: l) init
        = boundary_fold t c l (if c i then (if 0 < t i then min init (t i) else init) else init) :=
      rfl
    rw [step]
    refine le_trans (ih _) ?_
    by_cases hc : c i
    · by_cases ht : 0 < t i
      · simp only [hc, ht, if_true]
        exact min_le_left _ _
      · simp [hc, ht]
    · simp [hc]

/-- A fold of guarded `min` steps stays positive: each `min` is taken with a
trial value that the guard has checked to be positive. -/
theorem boundary_fold_pos (t : ℕ → ℚ) (c : ℕ → Bool) (l : List ℕ) (init : ℚ)
    (h : 0 < init) : 0 < boundary_fold t c l init := by
  induction l generalizing init with
  | nil => exact h
  | cons i l ih =>
    have step : boundary_fold t c (i :: l) init
        = boundary_fold t c l (if c i then (if 0 < t i then min init (t i) else init) else init) :=
      rfl
    rw [step]
    refine ih _ ?_
    by_cases hc : c i
    · by_cases ht : 0 < t i
      · simp only [hc, ht, if_true]
        exact lt_min h ht
      · simp [hc, ht, h]
    · simp [hc, h]

/-- The fold result is bounded by every positive trial value whose guard
holds at a listed index. -/
theorem boundary_fold_le_trial (t : ℕ → ℚ) (c : ℕ → Bool) (l : List ℕ) (init : ℚ)
    (i0 : ℕ) (hm : i0 ∈ l) (hc : c i0 = true) (ht : 0 < t i0) :
    boundary_fold t c l init ≤ t i0 := by
  induction l generalizing init with
  | nil => cases hm
  | cons i l ih =>
    have step : boundary_fold t c (i :: l) init
        = boundary_fold t c l (if c i then (if 0 < t i then min init (t i) else init) else init) :=
      rfl
    rw [step]
    rcases List.mem_cons.mp hm with h | h
    · subst h
      simp only [hc, ht, if_true]
      exact le_trans (boundary_fold_le_init _ _ _ _) (min_le_right _ _)
    · exact ih _ h

/-- With both bounds finite and ordered, and `0 ≤ k1`, `0 ≤ k2 ≤ 1`, the
pushed value lies in the closed interval `[l, u]`. -/
theorem push_mem_of_le (v l u k1 k2 : ℚ) (hlu : l ≤ u) (hk1 : 0 ≤ k1)
    (hk2a : 0 ≤ k2) (hk2b : k2 ≤ 1) :
    l ≤ push_variable_to_interior v (some l) (some u) k1 k2 ∧
    push_variable_to_interior v (some l) (some u) k1 k2 ≤ u := by
  have hpush : push_variable_to_interior v (some l) (some u) k1 k2
      = min (max v (l + min (k1 * max 1 |l|) (k2 * (u - l))))
          (u - min (k1 * max 1 |u|) (k2 * (u - l))) := rfl
  have hr : 0 ≤ u - l := by linarith
  have hmaxl : (0:ℚ) ≤ max 1 |l| := le_trans zero_le_one (le_max_left _ _)
  have hmaxu : (0:ℚ) ≤ max 1 |u| := le_trans zero_le_one (le_max_left _ _)
  have hplb0 : 0 ≤ min (k1 * max 1 |l|) (k2 * (u - l)) :=
    le_min (mul_nonneg hk1 hmaxl) (mul_nonneg hk2a hr)
  have hpub0 : 0 ≤ min (k1 * max 1 |u|) (k2 * (u - l)) :=
    le_min (mul_nonneg hk1 hmaxu) (mul_nonneg hk2a hr)
  have hpub_le : min (k1 * max 1 |u|) (k2 * (u - l)) ≤ u - l := by
    refine le_trans (min_le_right _ _) ?_
    nlinarith
  rw [hpush]
  constructor
  · refine le_min (le_trans ?_ (le_max_right _ _)) ?_
    · linarith
    · linarith
  · refine le_trans (min_le_right _ _) ?_
    linarith

/-- With both bounds finite, `l < u`, `0 < k1` and `0 < k2 < 1`, the pushed
value is strictly interior. -/
theorem push_strict_finite (v l u k1 k2 : ℚ) (hlu : l < u) (hk1 : 0 < k1)
    (hk2a : 0 < k2) (hk2b : k2 < 1) :
    l < push_variable_to_interior v (some l) (some u) k1 k2 ∧
    push_variable_to_interior v (some l) (some u) k1 k2 < u := by
  have hpush : push_variable_to_interior v (some l) (some u) k1 k2
      = min (max v (l + min (k1 * max 1 |l|) (k2 * (u - l))))
          (u - min (k1 * max 1 |u|) (k2 * (u - l))) := rfl
  have hr : 0 < u - l := by linarith
  have hmaxl : (0:ℚ) < max 1 |l| := lt_of_lt_of_le zero_lt_one (le_max_left _ _)
  have hmaxu : (0:ℚ) < max 1 |u| := lt_of_lt_of_le zero_lt_one (le_max_left _ _)
  have hplb0 : 0 < min (k1 * max 1 |l|) (k2 * (u - l)) :=
    lt_min (mul_pos hk1 hmaxl) (mul_pos hk2a hr)
  have hpub0 : 0 < min (k1 * max 1 |u|) (k2 * (u - l)) :=
    lt_min (mul_pos hk1 hmaxu) (mul_pos hk2a hr)
  have hpub_lt : min (k1 * max 1 |u|) (k2 * (u - l)) < u - l := by
    refine lt_of_le_of_lt (min_le_right _ _) ?_
    nlinarith
  rw [hpush]
  constructor
  · refine lt_min (lt_of_lt_of_le ?_ (le_max_right _ _)) ?_
    · linarith
    · linarith
  · refine lt_of_le_of_lt (min_le_right _ _) ?_
    linarith

/-- A fixed variable (`l = u`): both perturbations vanish and the pushed
value is exactly the bound. -/
theorem push_fixed (v l k1 k2 : ℚ) (hk1 : 0 ≤ k1) :
    push_variable_to_interior v (some l) (some l) k1 k2 = l := by
  have hpush : push_variable_to_interior v (some l) (some l) k1 k2
      = min (max v (l + min (k1 * max 1 |l|) (k2 * (l - l))))
          (l - min (k1 * max 1 |l|) (k2 * (l - l))) := rfl
  have hmaxl : (0:ℚ) ≤ max 1 |l| := le_trans zero_le_one (le_max_left _ _)
  have h0 : k2 * (l - l) = 0 := by rw [sub_self, mul_zero]
  rw [hpush, h0, min_eq_right (mul_nonneg hk1 hmaxl), add_zero, sub_zero]
  exact min_eq_right (le_max_right v l)

/-- Only the lower bound is finite: the pushed value is strictly above it
when `0 < k1`. -/
theorem push_gt_lb_single (v l k1 k2 : ℚ) (hk1 : 0 < k1) :
    l < push_variable_to_interior v (some l) none k1 k2 := by
  have hpush : push_variable_to_interior v (some l) none k1 k2
      = max v (l + k1 * max 1 |l|) := rfl
  have hmaxl : (0:ℚ) < max 1 |l| := lt_of_lt_of_le zero_lt_one (le_max_left _ _)
  rw [hpush]
  refine lt_of_lt_of_le ?_ (le_max_right _ _)
  nlinarith

/-- Only the upper bound is finite: the pushed value is strictly below it
when `0 < k1`. -/
theorem push_lt_ub_single (v u k1 k2 : ℚ) (hk1 : 0 < k1) :
    push_variable_to_interior v none (some u) k1 k2 < u := by
  have hpush : push_variable_to_interior v none (some u) k1 k2
      = min v (u - k1 * max 1 |u|) := rfl
  have hmaxu : (0:ℚ) < max 1 |u| := lt_of_lt_of_le zero_lt_one (le_max_left _ _)
  rw [hpush]
  refine lt_of_le_of_lt (min_le_right _ _) ?_
  nlinarith

/-- C10 counterexample: with `lb = 0 < 1 = ub` and `k2 = 1` (which satisfies
the claim's constraint `0 < k2 ≤ 1`, with `k1 = 1 > 0`), the pushed value
lands exactly on the lower bound, so it is not strictly interior. -/
theorem push_not_strict_at_k2_one :
    (0:ℚ) < 1 ∧ (0:ℚ) < (1:ℚ) ∧ (1:ℚ) ≤ 1 ∧
    push_variable_to_interior 5 (some 0) (some 1) 1 1 = 0 := by
  refine ⟨by norm_num, by norm_num, le_refl _, ?_⟩
  have hpush : push_variable_to_interior 5 (some 0) (some 1) 1 1
      = min (max 5 ((0:ℚ) + min (1 * max 1 |(0:ℚ)|) (1 * (1 - 0))))
          (1 - min (1 * max 1 |(1:ℚ)|) (1 * (1 - 0))) := rfl
  rw [hpush]
  norm_num [min_def, max_def]

/-- C10 (amended): for `lb ≤ ub`, `0 ≤ k1` and `0 ≤ k2 ≤ 1` the pushed value
lies in `[lb, ub]`; it is strictly inside whenever `lb < ub` and additionally
`0 < k1` and `0 < k2 < 1`; and when `lb = ub` both perturbations are 0 and
the returned value equals the bound exactly. -/
theorem push_variable_to_interior_spec (v l u k1 k2 : ℚ) (hlu : l ≤ u)
    (hk1 : 0 ≤ k1) (hk2a : 0 ≤ k2) (hk2b : k2 ≤ 1) :
    (l ≤ push_variable_to_interior v (some l) (some u) k1 k2 ∧
      push_variable_to_interior v (some l) (some u) k1 k2 ≤ u) ∧
    (l < u → 0 < k1 → 0 < k2 → k2 < 1 →
      l < push_variable_to_interior v (some l) (some u) k1 k2 ∧
      push_variable_to_interior v (some l) (some u) k1 k2 < u) ∧
    (l = u → push_variable_to_interior v (some l) (some u) k1 k2 = l) := by
  refine ⟨push_mem_of_le v l u k1 k2 hlu hk1 hk2a hk2b, ?_, ?_⟩
  · intro h1 h2 h3 h4
    exact push_strict_finite v l u k1 k2 h1 h2 h3 h4
  · intro h
    subst h
    exact push_fixed v l k1 k2 hk1

/-- Witness for C10: with `v = 5`, `[lb, ub] = [0, 1]`, `k1 = k2 = 1/100`,
the pushed value is strictly interior. -/
theorem push_variable_to_interior_spec_witness :
    (0:ℚ) < push_variable_to_interior 5 (some 0) (some 1) (1/100) (1/100) ∧
    push_variable_to_interior 5 (some 0) (some 1) (1/100) (1/100) < 1 :=
  (push_variable_to_interior_spec 5 0 1 (1/100) (1/100) (by norm_num) (by norm_num)
    (by norm_num) (by norm_num)).2.1 (by norm_num) (by norm_num) (by norm_num) (by norm_num)

/-- C3: `relax_variable_bounds` is a no-op — both relaxation loops have empty
bodies, so the variable bounds come back unchanged even when the iterate is
within `machine_epsilon * mu` of a bound. -/
theorem relax_variable_bounds_is_noop (p : Problem) (x : ℕ → ℚ) (mu machine_epsilon : ℚ) :
    relax_variable_bounds p x mu machine_epsilon = p := by
  have foldl_const : ∀ (l : List ℕ) (q : Problem), l.foldl (fun q _ => q) q = q := by
    intro l
    induction l with
    | nil => intro q; rfl
    | cons i l ih => intro q; exact ih q
  unfold relax_variable_bounds
  simp only [ite_self]
  rw [foldl_const, foldl_const]

/-- C9: the factory recognizes exactly the strategy strings
`QP`, `LP`, `primal_dual_interior_point`; every other string yields the
`std::invalid_argument` configuration error at construction time. -/
theorem factory_recognized_set (s : String) :
    (s ∈ ["QP", "LP", "primal_dual_interior_point"] →
      ∃ m, InequalityHandlingMethodFactory_create s = Except.ok m) ∧
    (s ∉ ["QP", "LP", "primal_dual_interior_point"] →
      InequalityHandlingMethodFactory_create s =
        Except.error ("Subproblem strategy " ++ s ++ " is not supported")) := by
  constructor
  · intro h
    rcases List.mem_cons.mp h with h1 | h
    · exact ⟨InequalityHandlingMethod.QPSubproblem, by rw [h1]; rfl⟩
    rcases List.mem_cons.mp h with h2 | h
    · exact ⟨InequalityHandlingMethod.LPSubproblem, by rw [h2]; rfl⟩
    rcases List.mem_cons.mp h with h3 | h
    · exact ⟨InequalityHandlingMethod.PrimalDualInteriorPointMethod, by rw [h3]; rfl⟩
    · cases h
  · intro h
    have h1 : s ≠ "QP" := fun e => h (by simp [e])
    have h2 : s ≠ "LP" := fun e => h (by simp [e])
    have h3 : s ≠ "primal_dual_interior_point" := fun e => h (by simp [e])
    unfold InequalityHandlingMethodFactory_create
    rw [if_neg h1, if_neg h2, if_neg h3]

/-- Witness for C9: `QP` is accepted, an arbitrary other string is rejected
with the configuration error. -/
theorem factory_recognized_set_witness :
    (∃ m, InequalityHandlingMethodFactory_create "QP" = Except.ok m) ∧
    InequalityHandlingMethodFactory_create "SQP" =
      Except.error ("Subproblem strategy " ++ "SQP" ++ " is not supported") :=
  ⟨(factory_recognized_set "QP").1 (by decide),
   (factory_recognized_set "SQP").2 (by decide)⟩

/- ### C2 / C6: the interiority invariant and the multiplier reset -/

/-- Reading one slot of a sequence of `Function.update`s: the slot either
kept its initial value or holds the payload of some listed update whose
target index is that slot. -/
theorem foldl_update_cases (g : ℕ × ℕ → ℚ) (l : List (ℕ × ℕ)) (x : ℕ → ℚ) (i : ℕ) :
    (l.foldl (fun x js => Function.update x js.2 (g js)) x) i = x i ∨
    ∃ js ∈ l, (l.foldl (fun x js => Function.update x js.2 (g js)) x) i = g js ∧ js.2 = i := by
  induction l generalizing x with
  | nil => exact Or.inl rfl
  | cons a l ih =>
    have step : ((a :: l).foldl (fun x js => Function.update x js.2 (g js)) x)
        = l.foldl (fun x js => Function.update x js.2 (g js)) (Function.update x a.2 (g a)) :=
      rfl
    rcases ih (Function.update x a.2 (g a)) with h | ⟨js, hmem, heq, hji⟩
    · by_cases hia : i = a.2
      · refine Or.inr ⟨a, List.mem_cons_self a l, ?_, hia.symm⟩
        rw [step, h, Function.update_apply, if_pos hia]
      · refine Or.inl ?_
        rw [step, h, Function.update_apply, if_neg hia]
    · refine Or.inr ⟨js, List.mem_cons_of_mem a hmem, ?_, hji⟩
      rw [step]
      exact heq

/-- C2 counterexample input: a problem with a single fixed variable
(both bounds finite and equal to 0). -/
def fixed_variable_problem : Problem :=
  { n := 1, var_lb := fun _ => some 0, var_ub := fun _ => some 0,
    lower_bounded := [0], upper_bounded := [0] }

/-- C2 counterexample input: the initial iterate (x = 1, multipliers 0). -/
def unit_iterate : Iterate :=
  { primals := fun _ => 1, mult_constraints := fun _ => 0,
    mult_lower := fun _ => 0, mult_upper := fun _ => 0 }

/-- C2 counterexample: on a problem with a fixed variable (`lb = ub = 0`),
`initialize` leaves the variable exactly on its bound, so the iterate after
`initialize` is not strictly interior. -/
theorem initialize_not_interior_on_fixed_variable :
    ¬ strictly_interior fixed_variable_problem
      (initialize_iterate fixed_variable_problem (1/100) (1/100) 1 [] (fun _ => 0) false
        (fun _ => 0) unit_iterate) := by
  intro h
  have e : (initialize_iterate fixed_variable_problem (1/100) (1/100) 1 [] (fun _ => 0) false
      (fun _ => 0) unit_iterate).primals 0
      = push_variable_to_interior 1 (some 0) (some 0) (1/100) (1/100) := rfl
  have hz := h.1 0 (by decide)
  rw [e, push_fixed 1 0 (1/100) (1/100) (by norm_num)] at hz
  have hlb : lbVal fixed_variable_problem 0 = 0 := rfl
  rw [hlb] at hz
  exact lt_irrefl 0 hz

/-- C2 (amended): provided no bounded variable is fixed (every finite lower
bound lies strictly below any finite upper bound), the bounded index lists
name finite bounds of in-range variables, and the options satisfy
`0 < k1`, `0 < k2 < 1`, `0 ≤ default_multiplier`, `0 < mu`, `1 ≤ k_sigma`,
the strict-interiority invariant holds after `initialize` and is preserved by
every `postprocess_iterate`. -/
theorem interior_invariant_holds
    (p : Problem) (k1 k2 default_multiplier mu k_sigma : ℚ)
    (slacks : List (ℕ × ℕ)) (constraints : ℕ → ℚ)
    (is_constrained : Bool) (lsq_multipliers : ℕ → ℚ) (first_iterate : Iterate)
    (hk1 : 0 < k1) (hk2a : 0 < k2) (hk2b : k2 < 1) (hdm : 0 ≤ default_multiplier)
    (hmu : 0 < mu) (hks : 1 ≤ k_sigma)
    (hfl : ∀ i ∈ p.lower_bounded, (p.var_lb i).isSome = true)
    (hfu : ∀ i ∈ p.upper_bounded, (p.var_ub i).isSome = true)
    (horder : ∀ i l u, p.var_lb i = some l → p.var_ub i = some u → l < u)
    (hnl : ∀ i ∈ p.lower_bounded, i < p.n)
    (hnu : ∀ i ∈ p.upper_bounded, i < p.n) :
    strictly_interior p (initialize_iterate p k1 k2 default_multiplier slacks constraints
      is_constrained lsq_multipliers first_iterate) ∧
    ∀ iterate : Iterate, strictly_interior p iterate →
      strictly_interior p (postprocess_iterate p mu k_sigma iterate) := by
  have hks0 : 0 < k_sigma := lt_of_lt_of_le zero_lt_one hks
  have push_above_lb : ∀ (w : ℚ) (i : ℕ) (l : ℚ), p.var_lb i = some l →
      l < push_variable_to_interior w (p.var_lb i) (p.var_ub i) k1 k2 := by
    intro w i l hl
    rw [hl]
    cases hub : p.var_ub i with
    | none => exact push_gt_lb_single w l k1 k2 hk1
    | some u => exact (push_strict_finite w l u k1 k2 (horder i l u hl hub) hk1 hk2a hk2b).1
  have push_below_ub : ∀ (w : ℚ) (i : ℕ) (u : ℚ), p.var_ub i = some u →
      push_variable_to_interior w (p.var_lb i) (p.var_ub i) k1 k2 < u := by
    intro w i u hu
    rw [hu]
    cases hlb : p.var_lb i with
    | none => exact push_lt_ub_single w u k1 k2 hk1
    | some l => exact (push_strict_finite w l u k1 k2 (horder i l u hlb hu) hk1 hk2a hk2b).2
  have hprim : ∀ i, i < p.n →
      ∃ w, (initialize_iterate p k1 k2 default_multiplier slacks constraints
        is_constrained lsq_multipliers first_iterate).primals i
        = push_variable_to_interior w (p.var_lb i) (p.var_ub i) k1 k2 := by
    intro i hi
    have hdef : (initialize_iterate p k1 k2 default_multiplier slacks constraints
        is_constrained lsq_multipliers first_iterate).primals
        = slacks.foldl (fun x js => Function.update x js.2
            (push_variable_to_interior (constraints js.1) (p.var_lb js.2) (p.var_ub js.2) k1 k2))
          (fun i => if i < p.n then
              push_variable_to_interior (first_iterate.primals i) (p.var_lb i) (p.var_ub i) k1 k2
            else first_iterate.primals i) := rfl
    rw [hdef]
    rcases foldl_update_cases
      (fun js => push_variable_to_interior (constraints js.1) (p.var_lb js.2) (p.var_ub js.2) k1 k2)
      slacks
      (fun i => if i < p.n then
          push_variable_to_interior (first_iterate.primals i) (p.var_lb i) (p.var_ub i) k1 k2
        else first_iterate.primals i) i with h | ⟨js, _, heq, hji⟩
    · refine ⟨first_iterate.primals i, ?_⟩
      rw [h, if_pos hi]
    · refine ⟨constraints js.1, ?_⟩
      rw [heq, hji]
  constructor
  · refine ⟨?_, ?_, ?_, ?_⟩
    · intro i hi
      rcases Option.isSome_iff_exists.mp (hfl i hi) with ⟨l, hl⟩
      rcases hprim i (hnl i hi) with ⟨w, hw⟩
      have hval : lbVal p i = l := by rw [lbVal, hl]; rfl
      rw [hw, hval]
      exact push_above_lb w i l hl
    · intro i hi
      rcases Option.isSome_iff_exists.mp (hfu i hi) with ⟨u, hu⟩
      rcases hprim i (hnu i hi) with ⟨w, hw⟩
      have hval : ubVal p i = u := by rw [ubVal, hu]; rfl
      rw [hw, hval]
      exact push_below_ub w i u hu
    · intro i hi
      have e : (initialize_iterate p k1 k2 default_multiplier slacks constraints
          is_constrained lsq_multipliers first_iterate).mult_lower i
          = if i ∈ p.lower_bounded then default_multiplier else first_iterate.mult_lower i := rfl
      rw [e, if_pos hi]
      exact hdm
    · intro i hi
      have e : (initialize_iterate p k1 k2 default_multiplier slacks constraints
          is_constrained lsq_multipliers first_iterate).mult_upper i
          = if i ∈ p.upper_bounded then -default_multiplier else first_iterate.mult_upper i := rfl
      rw [e, if_pos hi]
      exact neg_nonpos.mpr hdm
  · intro iterate hiter
    obtain ⟨h2l, h2u, h2zl, h2zu⟩ := hiter
    have eprim : (postprocess_iterate p mu k_sigma iterate).primals = iterate.primals := rfl
    refine ⟨?_, ?_, ?_, ?_⟩
    · intro i hi; rw [eprim]; exact h2l i hi
    · intro i hi; rw [eprim]; exact h2u i hi
    · intro i hi
      have e : (postprocess_iterate p mu k_sigma iterate).mult_lower i
          = if i ∈ p.lower_bounded then
              if mu / (iterate.primals i - lbVal p i) / k_sigma
                  ≤ mu / (iterate.primals i - lbVal p i) * k_sigma then
                max (min (iterate.mult_lower i) (mu / (iterate.primals i - lbVal p i) * k_sigma))
                  (mu / (iterate.primals i - lbVal p i) / k_sigma)
              else iterate.mult_lower i
            else iterate.mult_lower i := rfl
      rw [e, if_pos hi]
      by_cases hbr : mu / (iterate.primals i - lbVal p i) / k_sigma
          ≤ mu / (iterate.primals i - lbVal p i) * k_sigma
      · rw [if_pos hbr]
        have hd : 0 < iterate.primals i - lbVal p i := by
          have := h2l i hi; linarith
        have hco : 0 < mu / (iterate.primals i - lbVal p i) := div_pos hmu hd
        exact le_trans (div_pos hco hks0).le (le_max_right _ _)
      · rw [if_neg hbr]
        exact h2zl i hi
    · intro i hi
      have e : (postprocess_iterate p mu k_sigma iterate).mult_upper i
          = if i ∈ p.upper_bounded then
              if mu / (iterate.primals i - ubVal p i) * k_sigma
                  ≤ mu / (iterate.primals i - ubVal p i) / k_sigma then
                max (min (iterate.mult_upper i) (mu / (iterate.primals i - ubVal p i) / k_sigma))
                  (mu / (iterate.primals i - ubVal p i) * k_sigma)
              else iterate.mult_upper i
            else iterate.mult_upper i := rfl
      rw [e, if_pos hi]
      by_cases hbr : mu / (iterate.primals i - ubVal p i) * k_sigma
          ≤ mu / (iterate.primals i - ubVal p i) / k_sigma
      · rw [if_pos hbr]
        have hd : iterate.primals i - ubVal p i < 0 := by
          have := h2u i hi; linarith
        have hco : mu / (iterate.primals i - ubVal p i) < 0 := div_neg_of_pos_of_neg hmu hd
        refine max_le (le_trans (min_le_right _ _) ?_) ?_
        · exact (div_neg_of_neg_of_pos hco hks0).le
        · exact (mul_neg_of_neg_of_pos hco hks0).le
      · rw [if_neg hbr]
        exact h2zu i hi

/-- Witness input for C2: one variable, lower bound 0, no upper bound. -/
def lower_bounded_problem : Problem :=
  { n := 1, var_lb := fun _ => some 0, var_ub := fun _ => none,
    lower_bounded := [0], upper_bounded := [] }

/-- Witness for C2: on the single-variable problem with lower bound 0 and
IPOPT-default push parameters, the invariant holds after `initialize` and is
preserved by `postprocess_iterate`. -/
theorem interior_invariant_holds_witness :
    strictly_interior lower_bounded_problem
      (initialize_iterate lower_bounded_problem (1/100) (1/100) 1 [] (fun _ => 0) false
        (fun _ => 0) unit_iterate) ∧
    ∀ iterate : Iterate, strictly_interior lower_bounded_problem iterate →
      strictly_interior lower_bounded_problem
        (postprocess_iterate lower_bounded_problem 1 2 iterate) :=
  interior_invariant_holds lower_bounded_problem (1/100) (1/100) 1 1 2 [] (fun _ => 0) false
    (fun _ => 0) unit_iterate (by norm_num) (by norm_num) (by norm_num) (by norm_num)
    (by norm_num) (by norm_num) (by decide) (by decide)
    (fun i l u h1 h2 => Option.noConfusion h2) (by decide) (by decide)

/-- C6: with a strictly interior iterate, `0 < mu` and `1 ≤ k_sigma`,
`postprocess_iterate` clamps each lower-bound multiplier into
`[mu/(x_i - lb_i)/k_sigma, mu/(x_i - lb_i)*k_sigma]` and each upper-bound
multiplier into `[mu/(x_i - ub_i)*k_sigma, mu/(x_i - ub_i)/k_sigma]`, leaves
multipliers already inside their interval unchanged, and modifies no other
field of the iterate (primals, constraint multipliers, and multipliers of
unlisted indices are untouched). -/
theorem postprocess_multiplier_reset
    (p : Problem) (mu k_sigma : ℚ) (iterate : Iterate)
    (hmu : 0 < mu) (hks : 1 ≤ k_sigma)
    (hxl : ∀ i ∈ p.lower_bounded, lbVal p i < iterate.primals i)
    (hxu : ∀ i ∈ p.upper_bounded, iterate.primals i < ubVal p i) :
    (postprocess_iterate p mu k_sigma iterate).primals = iterate.primals ∧
    (postprocess_iterate p mu k_sigma iterate).mult_constraints = iterate.mult_constraints ∧
    (∀ i ∈ p.lower_bounded,
      mu / (iterate.primals i - lbVal p i) / k_sigma
        ≤ (postprocess_iterate p mu k_sigma iterate).mult_lower i ∧
      (postprocess_iterate p mu k_sigma iterate).mult_lower i
        ≤ mu / (iterate.primals i - lbVal p i) * k_sigma ∧
      (mu / (iterate.primals i - lbVal p i) / k_sigma ≤ iterate.mult_lower i →
        iterate.mult_lower i ≤ mu / (iterate.primals i - lbVal p i) * k_sigma →
        (postprocess_iterate p mu k_sigma iterate).mult_lower i = iterate.mult_lower i)) ∧
    (∀ i ∈ p.upper_bounded,
      mu / (iterate.primals i - ubVal p i) * k_sigma
        ≤ (postprocess_iterate p mu k_sigma iterate).mult_upper i ∧
      (postprocess_iterate p mu k_sigma iterate).mult_upper i
        ≤ mu / (iterate.primals i - ubVal p i) / k_sigma ∧
      (mu / (iterate.primals i - ubVal p i) * k_sigma ≤ iterate.mult_upper i →
        iterate.mult_upper i ≤ mu / (iterate.primals i - ubVal p i) / k_sigma →
        (postprocess_iterate p mu k_sigma iterate).mult_upper i = iterate.mult_upper i)) ∧
    (∀ i, i ∉ p.lower_bounded →
      (postprocess_iterate p mu k_sigma iterate).mult_lower i = iterate.mult_lower i) ∧
    (∀ i, i ∉ p.upper_bounded →
      (postprocess_iterate p mu k_sigma iterate).mult_upper i = iterate.mult_upper i) := by
  have hks0 : 0 < k_sigma := lt_of_lt_of_le zero_lt_one hks
  have elow : ∀ i, (postprocess_iterate p mu k_sigma iterate).mult_lower i
      = if i ∈ p.lower_bounded then
          if mu / (iterate.primals i - lbVal p i) / k_sigma
              ≤ mu / (iterate.primals i - lbVal p i) * k_sigma then
            max (min (iterate.mult_lower i) (mu / (iterate.primals i - lbVal p i) * k_sigma))
              (mu / (iterate.primals i - lbVal p i) / k_sigma)
          else iterate.mult_lower i
        else iterate.mult_lower i := fun i => rfl
  have eupp : ∀ i, (postprocess_iterate p mu k_sigma iterate).mult_upper i
      = if i ∈ p.upper_bounded then
          if mu / (iterate.primals i - ubVal p i) * k_sigma
              ≤ mu / (iterate.primals i - ubVal p i) / k_sigma then
            max (min (iterate.mult_upper i) (mu / (iterate.primals i - ubVal p i) / k_sigma))
              (mu / (iterate.primals i - ubVal p i) * k_sigma)
          else iterate.mult_upper i
        else iterate.mult_upper i := fun i => rfl
  refine ⟨rfl, rfl, ?_, ?_, ?_, ?_⟩
  · intro i hi
    have hd : 0 < iterate.primals i - lbVal p i := by have := hxl i hi; linarith
    have hco : 0 < mu / (iterate.primals i - lbVal p i) := div_pos hmu hd
    have hbr : mu / (iterate.primals i - lbVal p i) / k_sigma
        ≤ mu / (iterate.primals i - lbVal p i) * k_sigma :=
      le_trans (div_le_self hco.le hks) (le_mul_of_one_le_right hco.le hks)
    rw [elow i, if_pos hi, if_pos hbr]
    refine ⟨le_max_right _ _, max_le (min_le_right _ _) hbr, ?_⟩
    intro h3 h4
    rw [min_eq_left h4, max_eq_left h3]
  · intro i hi
    have hd : iterate.primals i - ubVal p i < 0 := by have := hxu i hi; linarith
    have hco : mu / (iterate.primals i - ubVal p i) < 0 := div_neg_of_pos_of_neg hmu hd
    have hbr1 : mu / (iterate.primals i - ubVal p i) * k_sigma
        ≤ mu / (iterate.primals i - ubVal p i) := by nlinarith
    have hbr2 : mu / (iterate.primals i - ubVal p i)
        ≤ mu / (iterate.primals i - ubVal p i) / k_sigma := by
      rw [le_div_iff₀ hks0]; nlinarith
    have hbr : mu / (iterate.primals i - ubVal p i) * k_sigma
        ≤ mu / (iterate.primals i - ubVal p i) / k_sigma := le_trans hbr1 hbr2
    rw [eupp i, if_pos hi, if_pos hbr]
    refine ⟨le_max_right _ _, max_le (min_le_right _ _) hbr, ?_⟩
    intro h3 h4
    rw [min_eq_left h4, max_eq_left h3]
  · intro i hi
    rw [elow i, if_neg hi]
  · intro i hi
    rw [eupp i, if_neg hi]

/- ### C4: `recover_l1qp_active_set_` -/

/-- One of the two index sets of an active-set record
(`at_lower_bound` / `at_upper_bound` pairs, cf. ActiveSetMethod.cpp). -/
structure ActiveSetRecord where
  at_lower : Finset ℕ
  at_upper : Finset ℕ
deriving DecidableEq

/-- The active-set part of a `Direction`: one record for variable bounds,
one for constraints. -/
structure DirectionActiveSet where
  bounds : ActiveSetRecord
  constraints : ActiveSetRecord
deriving DecidableEq

/-- The loop `for i = nvars; i < nvars + count; i++ { s.erase(i) }`. -/
def erase_from (s : Finset ℕ) (lo : ℕ) : ℕ → Finset ℕ
  | 0 => s
  | k + 1 => (erase_from s lo k).erase (lo + k)

/-- The elastic contribution `p_j + n_j` read off the direction's primal
vector through the two partial maps j → elastic index
(`elastic_variables.positive/.negative`). -/
def elastic_sum (x : ℕ → ℚ) (pos neg : ℕ → Option ℕ) (j : ℕ) : ℚ :=
  (match pos j with | some i => x i | none => 0) +
  (match neg j with | some i => x i | none => 0)

/-- The loop over constraints `j = 0 .. m-1`: when the elastic contribution
is positive, erase `j` from both constraint active sets. -/
def erase_violated (x : ℕ → ℚ) (pos neg : ℕ → Option ℕ) (c : ActiveSetRecord) :
    ℕ → ActiveSetRecord
  | 0 => c
  | j + 1 =>
      if 0 < elastic_sum x pos neg j then
        ⟨(erase_violated x pos neg c j).at_lower.erase j,
         (erase_violated x pos neg c j).at_upper.erase j⟩
      else erase_violated x pos neg c j

/-- `ActiveSetMethod::recover_l1qp_active_set_`: remove the elastic variable
indices (`nvars ≤ i < xsize`) from the bound active sets, and remove every
constraint whose elastic contribution `p_j + n_j` is positive from the
constraint active sets. -/
def recover_l1qp_active_set (nvars xsize : ℕ) (x : ℕ → ℚ) (pos neg : ℕ → Option ℕ)
    (m : ℕ) (direction_active_set : DirectionActiveSet) : DirectionActiveSet :=
  { bounds := ⟨erase_from direction_active_set.bounds.at_lower nvars (xsize - nvars),
               erase_from direction_active_set.bounds.at_upper nvars (xsize - nvars)⟩,
    constraints := erase_violated x pos neg direction_active_set.constraints m }

/-- Membership after `erase_from`: erased iff in the erased window. -/
theorem mem_erase_from (s : Finset ℕ) (lo k i : ℕ) :
    i ∈ erase_from s lo k ↔ i ∈ s ∧ ¬(lo ≤ i ∧ i < lo + k) := by
  induction k with
  | zero =>
    simp only [erase_from, Nat.add_zero]
    constructor
    · intro h
      exact ⟨h, fun hc => absurd hc.2 (not_lt_of_le hc.1)⟩
    · intro h
      exact h.1
  | succ k ih =>
    simp only [erase_from, Finset.mem_erase, ih]
    constructor
    · rintro ⟨hne, hs, hwin⟩
      refine ⟨hs, fun hc => ?_⟩
      rcases Nat.lt_succ_iff_lt_or_eq.mp (by omega : i < (lo + k) + 1) with h | h
      · exact hwin ⟨hc.1, by omega⟩
      · exact hne (by omega)
    · rintro ⟨hs, hwin⟩
      refine ⟨fun he => hwin ⟨by omega, by omega⟩, hs, fun hc => hwin ⟨hc.1, by omega⟩⟩

/-- Membership in the lower constraint set after `erase_violated`. -/
theorem mem_erase_violated_lower (x : ℕ → ℚ) (pos neg : ℕ → Option ℕ)
    (c : ActiveSetRecord) (m j : ℕ) :
    j ∈ (erase_violated x pos neg c m).at_lower ↔
      j ∈ c.at_lower ∧ ¬(j < m ∧ 0 < elastic_sum x pos neg j) := by
  induction m with
  | zero =>
    simp only [erase_violated]
    exact ⟨fun h => ⟨h, fun hc => absurd hc.1 (Nat.not_lt_zero j)⟩, fun h => h.1⟩
  | succ m ih =>
    simp only [erase_violated]
    by_cases hv : 0 < elastic_sum x pos neg m
    · rw [if_pos hv]
      simp only [Finset.mem_erase, ih]
      constructor
      · rintro ⟨hne, hj, hwin⟩
        refine ⟨hj, fun hc => ?_⟩
        rcases Nat.lt_succ_iff_lt_or_eq.mp hc.1 with h | h
        · exact hwin ⟨h, hc.2⟩
        · exact hne h
      · rintro ⟨hj, hwin⟩
        refine ⟨fun he => hwin ⟨by omega, by rw [he]; exact hv⟩, hj,
          fun hc => hwin ⟨by omega, hc.2⟩⟩
    · rw [if_neg hv]
      rw [ih]
      constructor
      · rintro ⟨hj, hwin⟩
        refine ⟨hj, fun hc => ?_⟩
        rcases Nat.lt_succ_iff_lt_or_eq.mp hc.1 with h | h
        · exact hwin ⟨h, hc.2⟩
        · exact hv (h ▸ hc.2)
      · rintro ⟨hj, hwin⟩
        exact ⟨hj, fun hc => hwin ⟨by omega, hc.2⟩⟩

/-- Membership in the upper constraint set after `erase_violated`. -/
theorem mem_erase_violated_upper (x : ℕ → ℚ) (pos neg : ℕ → Option ℕ)
    (c : ActiveSetRecord) (m j : ℕ) :
    j ∈ (erase_violated x pos neg c m).at_upper ↔
      j ∈ c.at_upper ∧ ¬(j < m ∧ 0 < elastic_sum x pos neg j) := by
  induction m with
  | zero =>
    simp only [erase_violated]
    exact ⟨fun h => ⟨h, fun hc => absurd hc.1 (Nat.not_lt_zero j)⟩, fun h => h.1⟩
  | succ m ih =>
    simp only [erase_violated]
    by_cases hv : 0 < elastic_sum x pos neg m
    · rw [if_pos hv]
      simp only [Finset.mem_erase, ih]
      constructor
      · rintro ⟨hne, hj, hwin⟩
        refine ⟨hj, fun hc => ?_⟩
        rcases Nat.lt_succ_iff_lt_or_eq.mp hc.1 with h | h
        · exact hwin ⟨h, hc.2⟩
        · exact hne h
      · rintro ⟨hj, hwin⟩
        refine ⟨fun he => hwin ⟨by omega, by rw [he]; exact hv⟩, hj,
          fun hc => hwin ⟨by omega, hc.2⟩⟩
    · rw [if_neg hv]
      rw [ih]
      constructor
      · rintro ⟨hj, hwin⟩
        refine ⟨hj, fun hc => ?_⟩
        rcases Nat.lt_succ_iff_lt_or_eq.mp hc.1 with h | h
        · exact hwin ⟨h, hc.2⟩
        · exact hv (h ▸ hc.2)
      · rintro ⟨hj, hwin⟩
        exact ⟨hj, fun hc => hwin ⟨by omega, hc.2⟩⟩

/-- C4: after `recover_l1qp_active_set_` no elastic variable index
(`nvars ≤ i < xsize`) is in either bound active set, no constraint `j < m`
with positive elastic contribution `p_j + n_j` is in either constraint active
set, and every other entry is exactly as before. -/
theorem recover_l1qp_active_set_spec (nvars xsize : ℕ) (x : ℕ → ℚ)
    (pos neg : ℕ → Option ℕ) (m : ℕ) (d : DirectionActiveSet)
    (hsz : nvars ≤ xsize) :
    (∀ i, nvars ≤ i → i < xsize →
      i ∉ (recover_l1qp_active_set nvars xsize x pos neg m d).bounds.at_lower ∧
      i ∉ (recover_l1qp_active_set nvars xsize x pos neg m d).bounds.at_upper) ∧
    (∀ j, j < m → 0 < elastic_sum x pos neg j →
      j ∉ (recover_l1qp_active_set nvars xsize x pos neg m d).constraints.at_lower ∧
      j ∉ (recover_l1qp_active_set nvars xsize x pos neg m d).constraints.at_upper) ∧
    (∀ i, i < nvars ∨ xsize ≤ i →
      (i ∈ (recover_l1qp_active_set nvars xsize x pos neg m d).bounds.at_lower
        ↔ i ∈ d.bounds.at_lower) ∧
      (i ∈ (recover_l1qp_active_set nvars xsize x pos neg m d).bounds.at_upper
        ↔ i ∈ d.bounds.at_upper)) ∧
    (∀ j, ¬(j < m ∧ 0 < elastic_sum x pos neg j) →
      (j ∈ (recover_l1qp_active_set nvars xsize x pos neg m d).constraints.at_lower
        ↔ j ∈ d.constraints.at_lower) ∧
      (j ∈ (recover_l1qp_active_set nvars xsize x pos neg m d).constraints.at_upper
        ↔ j ∈ d.constraints.at_upper)) := by
  have hwin : nvars + (xsize - nvars) = xsize := by omega
  refine ⟨?_, ?_, ?_, ?_⟩
  · intro i h1 h2
    constructor
    · intro hmem
      rcases (mem_erase_from d.bounds.at_lower nvars (xsize - nvars) i).mp hmem with ⟨_, hno⟩
      exact hno ⟨h1, by omega⟩
    · intro hmem
      rcases (mem_erase_from d.bounds.at_upper nvars (xsize - nvars) i).mp hmem with ⟨_, hno⟩
      exact hno ⟨h1, by omega⟩
  · intro j h1 h2
    constructor
    · intro hmem
      rcases (mem_erase_violated_lower x pos neg d.constraints m j).mp hmem with ⟨_, hno⟩
      exact hno ⟨h1, h2⟩
    · intro hmem
      rcases (mem_erase_violated_upper x pos neg d.constraints m j).mp hmem with ⟨_, hno⟩
      exact hno ⟨h1, h2⟩
  · intro i hrange
    constructor
    · show i ∈ erase_from d.bounds.at_lower nvars (xsize - nvars) ↔ i ∈ d.bounds.at_lower
      rw [mem_erase_from]
      constructor
      · intro h; exact h.1
      · intro h
        exact ⟨h, fun hc => by omega⟩
    · show i ∈ erase_from d.bounds.at_upper nvars (xsize - nvars) ↔ i ∈ d.bounds.at_upper
      rw [mem_erase_from]
      constructor
      · intro h; exact h.1
      · intro h
        exact ⟨h, fun hc => by omega⟩
  · intro j hno
    constructor
    · show j ∈ (erase_violated x pos neg d.constraints m).at_lower ↔ j ∈ d.constraints.at_lower
      rw [mem_erase_violated_lower]
      exact ⟨fun h => h.1, fun h => ⟨h, hno⟩⟩
    · show j ∈ (erase_violated x pos neg d.constraints m).at_upper ↔ j ∈ d.constraints.at_upper
      rw [mem_erase_violated_upper]
      exact ⟨fun h => h.1, fun h => ⟨h, hno⟩⟩

/-- Witness for C4: two original variables, one elastic (index 2) held at
value 1 feeding constraint 0; the elastic leaves the bound records and the
relaxed constraint 0 leaves the constraint records, while variable 0 and
constraint 1 stay. -/
theorem recover_l1qp_active_set_spec_witness :
    (2 ∉ (recover_l1qp_active_set 2 3 (fun _ => 1) (fun j => if j = 0 then some 2 else none)
        (fun _ => none) 2 ⟨⟨{0, 2}, {2}⟩, ⟨{0, 1}, {1}⟩⟩).bounds.at_lower ∧
      2 ∉ (recover_l1qp_active_set 2 3 (fun _ => 1) (fun j => if j = 0 then some 2 else none)
        (fun _ => none) 2 ⟨⟨{0, 2}, {2}⟩, ⟨{0, 1}, {1}⟩⟩).bounds.at_upper) ∧
    (0 ∉ (recover_l1qp_active_set 2 3 (fun _ => 1) (fun j => if j = 0 then some 2 else none)
        (fun _ => none) 2 ⟨⟨{0, 2}, {2}⟩, ⟨{0, 1}, {1}⟩⟩).constraints.at_lower ∧
      0 ∉ (recover_l1qp_active_set 2 3 (fun _ => 1) (fun j => if j = 0 then some 2 else none)
        (fun _ => none) 2 ⟨⟨{0, 2}, {2}⟩, ⟨{0, 1}, {1}⟩⟩).constraints.at_upper) ∧
    (0 ∈ (recover_l1qp_active_set 2 3 (fun _ => 1) (fun j => if j = 0 then some 2 else none)
        (fun _ => none) 2 ⟨⟨{0, 2}, {2}⟩, ⟨{0, 1}, {1}⟩⟩).bounds.at_lower ↔ True) ∧
    (1 ∈ (recover_l1qp_active_set 2 3 (fun _ => 1) (fun j => if j = 0 then some 2 else none)
        (fun _ => none) 2 ⟨⟨{0, 2}, {2}⟩, ⟨{0, 1}, {1}⟩⟩).constraints.at_upper ↔ True) := by
  have h := recover_l1qp_active_set_spec 2 3 (fun _ => 1)
    (fun j => if j = 0 then some 2 else none) (fun _ => none) 2
    ⟨⟨{0, 2}, {2}⟩, ⟨{0, 1}, {1}⟩⟩ (by norm_num)
  refine ⟨h.1 2 (by norm_num) (by norm_num), h.2.1 0 (by norm_num) ?_, ?_, ?_⟩
  · show (0:ℚ) < (1 : ℚ) + 0
    norm_num
  · rw [(h.2.2.1 0 (Or.inl (by norm_num))).1]
    simp
  · rw [(h.2.2.2 1 ?_).2]
    · simp
    · rintro ⟨_, hv⟩
      revert hv
      show ¬ ((0:ℚ) < 0 + 0)
      norm_num

/-- Witness for C6: single lower-bounded variable at distance 1 from its
bound, `mu = 1`, `k_sigma = 2`. -/
theorem postprocess_multiplier_reset_witness :
    (postprocess_iterate lower_bounded_problem 1 2 unit_iterate).primals = unit_iterate.primals ∧
    ((1:ℚ) / (unit_iterate.primals 0 - lbVal lower_bounded_problem 0) / 2
        ≤ (postprocess_iterate lower_bounded_problem 1 2 unit_iterate).mult_lower 0 ∧
      (postprocess_iterate lower_bounded_problem 1 2 unit_iterate).mult_lower 0
        ≤ 1 / (unit_iterate.primals 0 - lbVal lower_bounded_problem 0) * 2 ∧
      ((1:ℚ) / (unit_iterate.primals 0 - lbVal lower_bounded_problem 0) / 2
          ≤ unit_iterate.mult_lower 0 →
        unit_iterate.mult_lower 0
          ≤ 1 / (unit_iterate.primals 0 - lbVal lower_bounded_problem 0) * 2 →
        (postprocess_iterate lower_bounded_problem 1 2 unit_iterate).mult_lower 0
          = unit_iterate.mult_lower 0)) := by
  have h := postprocess_multiplier_reset lower_bounded_problem 1 2 unit_iterate
    (by norm_num) (by norm_num) (by decide) (by decide)
  exact ⟨h.1, h.2.2.1 0 (by decide)⟩

/- ### C8: displacement bounds of the active-set subproblem -/

/-- `InequalityConstrainedMethod::set_direction_bounds`: original variables
(`i < n_orig`) get bounds intersected with the trust region; additional
(elastic) variables (`n_orig ≤ i < n`) get plain `bound - x_i` with no trust
region. An infinite variable bound leaves only the trust region (original
variables) or stays infinite (additional variables), matching the IEEE
`max(-radius, -inf) = -radius` arithmetic of the C++ code. -/
def set_direction_bounds (n_orig n : ℕ) (lb ub : ℕ → Option ℚ) (x : ℕ → ℚ)
    (radius : ℚ) : (ℕ → Option ℚ) × (ℕ → Option ℚ) :=
  (fun i =>
    if i < n_orig then
      some (match lb i with | some l => max (-radius) (l - x i) | none => -radius)
    else if i < n then Option.map (fun l => l - x i) (lb i)
    else none,
  fun i =>
    if i < n_orig then
      some (match ub i with | some u => min radius (u - x i) | none => radius)
    else if i < n then Option.map (fun u => u - x i) (ub i)
    else none)

/-- C8: for every trust-region radius `0 < radius`, each original variable's
displacement interval is `[max(-radius, lb_i - x_i), min(radius, ub_i - x_i)]`
— semantically, displacements that respect both the trust region and the
variable bounds — while each additional (elastic) variable gets exactly
`[lb_i - x_i, ub_i - x_i]` with no trust region (lower bound `0 - x_i` for a
nonnegative elastic). -/
theorem set_direction_bounds_spec (n_orig n : ℕ) (lb ub : ℕ → Option ℚ) (x : ℕ → ℚ)
    (radius : ℚ) (hr : 0 < radius) :
    (∀ i, i < n_orig → ∀ l u, lb i = some l → ub i = some u →
      (set_direction_bounds n_orig n lb ub x radius).1 i = some (max (-radius) (l - x i)) ∧
      (set_direction_bounds n_orig n lb ub x radius).2 i = some (min radius (u - x i)) ∧
      (∀ d : ℚ, (max (-radius) (l - x i) ≤ d ∧ d ≤ min radius (u - x i)) ↔
        (-radius ≤ d ∧ d ≤ radius ∧ l ≤ x i + d ∧ x i + d ≤ u))) ∧
    (∀ i, n_orig ≤ i → i < n →
      (set_direction_bounds n_orig n lb ub x radius).1 i = Option.map (fun l => l - x i) (lb i) ∧
      (set_direction_bounds n_orig n lb ub x radius).2 i = Option.map (fun u => u - x i) (ub i) ∧
      (lb i = some 0 → (set_direction_bounds n_orig n lb ub x radius).1 i = some (0 - x i)) ∧
      (∀ l u d, lb i = some l → ub i = some u →
        ((l - x i ≤ d ∧ d ≤ u - x i) ↔ (l ≤ x i + d ∧ x i + d ≤ u)))) := by
  constructor
  · intro i hio l u hl hu
    have e1 : (set_direction_bounds n_orig n lb ub x radius).1 i
        = if i < n_orig then
            some (match lb i with | some l => max (-radius) (l - x i) | none => -radius)
          else if i < n then Option.map (fun l => l - x i) (lb i)
          else none := rfl
    have e2 : (set_direction_bounds n_orig n lb ub x radius).2 i
        = if i < n_orig then
            some (match ub i with | some u => min radius (u - x i) | none => radius)
          else if i < n then Option.map (fun u => u - x i) (ub i)
          else none := rfl
    refine ⟨?_, ?_, ?_⟩
    · rw [e1, if_pos hio, hl]
    · rw [e2, if_pos hio, hu]
    · intro d
      rw [max_le_iff, le_min_iff]
      constructor
      · rintro ⟨⟨h1, h2⟩, h3, h4⟩
        exact ⟨h1, h3, by linarith, by linarith⟩
      · rintro ⟨h1, h2, h3, h4⟩
        exact ⟨⟨h1, by linarith⟩, h2, by linarith⟩
  · intro i h1 h2
    have e1 : (set_direction_bounds n_orig n lb ub x radius).1 i
        = if i < n_orig then
            some (match lb i with | some l => max (-radius) (l - x i) | none => -radius)
          else if i < n then Option.map (fun l => l - x i) (lb i)
          else none := rfl
    have e2 : (set_direction_bounds n_orig n lb ub x radius).2 i
        = if i < n_orig then
            some (match ub i with | some u => min radius (u - x i) | none => radius)
          else if i < n then Option.map (fun u => u - x i) (ub i)
          else none := rfl
    have hno : ¬ i < n_orig := not_lt.mpr h1
    refine ⟨?_, ?_, ?_, ?_⟩
    · rw [e1, if_neg hno, if_pos h2]
    · rw [e2, if_neg hno, if_pos h2]
    · intro hl
      rw [e1, if_neg hno, if_pos h2, hl]
      rfl
    · intro l u d hl hu
      constructor
      · rintro ⟨ha, hb⟩
        exact ⟨by linarith, by linarith⟩
      · rintro ⟨ha, hb⟩
        exact ⟨by linarith, by linarith⟩

/-- Witness for C8: two variables (one original, one elastic), bounds
`[0, 2]`, iterate at 1, radius 1: the original variable's displacement
interval is `[max(-1, -1), min(1, 1)]`, the elastic's lower displacement
bound is `0 - 1` with no trust-region truncation. -/
theorem set_direction_bounds_spec_witness :
    (set_direction_bounds 1 2 (fun _ => some 0) (fun _ => some 2) (fun _ => 1) 1).1 0
      = some (max (-1) (0 - 1)) ∧
    (set_direction_bounds 1 2 (fun _ => some 0) (fun _ => some 2) (fun _ => 1) 1).2 0
      = some (min 1 (2 - 1)) ∧
    (set_direction_bounds 1 2 (fun _ => some 0) (fun _ => some 2) (fun _ => 1) 1).1 1
      = some (0 - 1) := by
  have h := set_direction_bounds_spec 1 2 (fun _ => some 0) (fun _ => some 2) (fun _ => 1) 1
    (by norm_num)
  have h0 := h.1 0 (by norm_num) 0 2 rfl rfl
  have h1 := (h.2 1 (by norm_num) (by norm_num)).2.2.1 rfl
  exact ⟨h0.1, h0.2.1, h1⟩

/- ### C7: the l1LP feasibility-restoration subproblem -/

/-- Feasibility status of a constraint in a `ConstraintPartition`. -/
inductive ConstraintFeasibility where
  | FEASIBLE
  | INFEASIBLE_LOWER
  | INFEASIBLE_UPPER
deriving DecidableEq

/-- A `ConstraintPartition`: the list of infeasible constraint indices and
the per-constraint feasibility tag. -/
structure ConstraintPartition where
  infeasible : List ℕ
  feasibility : ℕ → ConstraintFeasibility

/-- Phase tag of a `Direction`. -/
inductive Phase where
  | OPTIMALITY
  | RESTORATION
deriving DecidableEq

/-- The part of a `Direction` that C7 observes. -/
structure LPDirection where
  x : ℕ → ℚ
  objective_multiplier : ℚ
  phase : Phase

/-- `ActiveSetMethod::compute_l1_linear_objective_`: the objective gradient
accumulates `-∇c_j` for each infeasible constraint marked INFEASIBLE_LOWER
and `+∇c_j` otherwise, over the infeasible list. -/
def compute_l1_linear_objective (jac : ℕ → ℕ → ℚ) (cp : ConstraintPartition) : ℕ → ℚ :=
  fun i => cp.infeasible.foldl
    (fun acc j =>
      if cp.feasibility j = ConstraintFeasibility.INFEASIBLE_LOWER then acc - jac j i
      else acc + jac j i) 0

/-- `ActiveSetMethod::generate_feasibility_bounds_`: linearized-constraint
bounds freed on the non-violated side. -/
def generate_feasibility_bounds (cL cU : ℕ → Option ℚ) (current_constraints : ℕ → ℚ)
    (cp : ConstraintPartition) : ℕ → Option ℚ × Option ℚ :=
  fun j =>
    match cp.feasibility j with
    | ConstraintFeasibility.INFEASIBLE_LOWER =>
        (none, some ((cL j).getD 0 - current_constraints j))
    | ConstraintFeasibility.INFEASIBLE_UPPER =>
        (some ((cU j).getD 0 - current_constraints j), none)
    | ConstraintFeasibility.FEASIBLE =>
        (Option.map (fun v => v - current_constraints j) (cL j),
         Option.map (fun v => v - current_constraints j) (cU j))

/-- `ActiveSetMethod::generate_variables_bounds_`: variable bounds
intersected with the trust region (legacy active-set path, all bounds
finite doubles). -/
def generate_variables_bounds (bounds : ℕ → ℚ × ℚ) (x : ℕ → ℚ) (radius : ℚ) : ℕ → ℚ × ℚ :=
  fun i => (max (-radius) ((bounds i).1 - x i), min radius ((bounds i).2 - x i))

/-- `ActiveSetMethod::compute_l1lp_step_`: assemble the l1 objective, the
trust-region variable bounds and the feasibility constraint bounds, call the
external LP solver (abstracted as `solve_LP`), and tag the returned direction
with `objective_multiplier = 0` and the RESTORATION phase. -/
def compute_l1lp_step
    (solve_LP : (ℕ → ℚ × ℚ) → (ℕ → Option ℚ × Option ℚ) → (ℕ → ℚ) → (ℕ → ℕ → ℚ) →
      (ℕ → ℚ) → LPDirection)
    (bounds : ℕ → ℚ × ℚ) (x : ℕ → ℚ) (radius : ℚ)
    (cL cU : ℕ → Option ℚ) (current_constraints : ℕ → ℚ) (jac : ℕ → ℕ → ℚ)
    (cp : ConstraintPartition) (phase2_x : ℕ → ℚ) : LPDirection :=
  let objective_gradient := compute_l1_linear_objective jac cp
  let variables_bounds := generate_variables_bounds bounds x radius
  let constraints_bounds := generate_feasibility_bounds cL cU current_constraints cp
  let d := solve_LP variables_bounds constraints_bounds objective_gradient jac phase2_x
  { d with objective_multiplier := 0, phase := Phase.RESTORATION }

/-- Folding signed additions equals the signed sum. -/
theorem foldl_signed_sum (P : ℕ → Prop) [DecidablePred P] (f : ℕ → ℚ) (l : List ℕ) (a : ℚ) :
    l.foldl (fun acc j => if P j then acc - f j else acc + f j) a
      = a + (l.map (fun j => if P j then -(f j) else f j)).sum := by
  induction l generalizing a with
  | nil => simp
  | cons j l ih =>
    simp only [List.foldl_cons, List.map_cons, List.sum_cons]
    rw [ih]
    by_cases h : P j
    · rw [if_pos h, if_pos h]; ring
    · rw [if_neg h, if_neg h]; ring

/-- C7: the restoration (l1LP) subproblem is built with objective gradient
equal to the signed sum of the infeasible constraints' gradients (`-∇c_j`
for INFEASIBLE_LOWER, `+∇c_j` for INFEASIBLE_UPPER), `objective_multiplier`
0 (and the RESTORATION phase tag), and linearized-constraint bounds free on
the non-violated side: `(-∞, c_L_j - c_j(x)]` for INFEASIBLE_LOWER,
`[c_U_j - c_j(x), +∞)` for INFEASIBLE_UPPER, both two-sided bounds shifted
by `-c_j(x)` for FEASIBLE constraints. -/
theorem l1lp_restoration_subproblem_spec
    (solve_LP : (ℕ → ℚ × ℚ) → (ℕ → Option ℚ × Option ℚ) → (ℕ → ℚ) → (ℕ → ℕ → ℚ) →
      (ℕ → ℚ) → LPDirection)
    (bounds : ℕ → ℚ × ℚ) (x : ℕ → ℚ) (radius : ℚ)
    (cL cU : ℕ → Option ℚ) (current_constraints : ℕ → ℚ) (jac : ℕ → ℕ → ℚ)
    (cp : ConstraintPartition) (phase2_x : ℕ → ℚ) :
    (compute_l1lp_step solve_LP bounds x radius cL cU current_constraints jac cp
        phase2_x).objective_multiplier = 0 ∧
    (compute_l1lp_step solve_LP bounds x radius cL cU current_constraints jac cp
        phase2_x).phase = Phase.RESTORATION ∧
    (∀ j l, cp.feasibility j = ConstraintFeasibility.INFEASIBLE_LOWER → cL j = some l →
      generate_feasibility_bounds cL cU current_constraints cp j
        = (none, some (l - current_constraints j))) ∧
    (∀ j u, cp.feasibility j = ConstraintFeasibility.INFEASIBLE_UPPER → cU j = some u →
      generate_feasibility_bounds cL cU current_constraints cp j
        = (some (u - current_constraints j), none)) ∧
    (∀ j, cp.feasibility j = ConstraintFeasibility.FEASIBLE →
      generate_feasibility_bounds cL cU current_constraints cp j
        = (Option.map (fun v => v - current_constraints j) (cL j),
           Option.map (fun v => v - current_constraints j) (cU j))) ∧
    (∀ i, compute_l1_linear_objective jac cp i
      = (cp.infeasible.map (fun j =>
          if cp.feasibility j = ConstraintFeasibility.INFEASIBLE_LOWER then -(jac j i)
          else jac j i)).sum) := by
  refine ⟨rfl, rfl, ?_, ?_, ?_, ?_⟩
  · intro j l h1 h2
    unfold generate_feasibility_bounds
    rw [h1, h2]
    rfl
  · intro j u h1 h2
    unfold generate_feasibility_bounds
    rw [h1, h2]
    rfl
  · intro j h1
    unfold generate_feasibility_bounds
    rw [h1]
  · intro i
    unfold compute_l1_linear_objective
    rw [foldl_signed_sum (fun j => cp.feasibility j = ConstraintFeasibility.INFEASIBLE_LOWER)
      (fun j => jac j i) cp.infeasible 0]
    rw [zero_add]

/-- Witness for C7: one INFEASIBLE_LOWER constraint (index 0) with
`c_L = 1`, `c(x) = 2`, unit Jacobian: the constraint bound becomes
`(-∞, 1 - 2]`, the objective gradient is `-1`, and the direction carries
`objective_multiplier = 0` and the RESTORATION tag. -/
theorem l1lp_restoration_subproblem_spec_witness :
    (compute_l1lp_step (fun _ _ _ _ d0 => ⟨d0, 5, Phase.OPTIMALITY⟩)
        (fun _ => (0, 3)) (fun _ => 1) 1 (fun _ => some 1) (fun _ => some 3) (fun _ => 2)
        (fun _ _ => 1) ⟨[0], fun _ => ConstraintFeasibility.INFEASIBLE_LOWER⟩
        (fun _ => 0)).objective_multiplier = 0 ∧
    (compute_l1lp_step (fun _ _ _ _ d0 => ⟨d0, 5, Phase.OPTIMALITY⟩)
        (fun _ => (0, 3)) (fun _ => 1) 1 (fun _ => some 1) (fun _ => some 3) (fun _ => 2)
        (fun _ _ => 1) ⟨[0], fun _ => ConstraintFeasibility.INFEASIBLE_LOWER⟩
        (fun _ => 0)).phase = Phase.RESTORATION ∧
    generate_feasibility_bounds (fun _ => some 1) (fun _ => some 3) (fun _ => 2)
        ⟨[0], fun _ => ConstraintFeasibility.INFEASIBLE_LOWER⟩ 0 = (none, some (1 - 2)) ∧
    compute_l1_linear_objective (fun _ _ => 1)
        ⟨[0], fun _ => ConstraintFeasibility.INFEASIBLE_LOWER⟩ 0
      = ([0].map (fun j =>
          if (fun _ => ConstraintFeasibility.INFEASIBLE_LOWER) j
              = ConstraintFeasibility.INFEASIBLE_LOWER then -((fun _ _ => (1:ℚ)) j 0)
          else (fun _ _ => (1:ℚ)) j 0)).sum := by
  have h := l1lp_restoration_subproblem_spec (fun _ _ _ _ d0 => ⟨d0, 5, Phase.OPTIMALITY⟩)
    (fun _ => (0, 3)) (fun _ => 1) 1 (fun _ => some 1) (fun _ => some 3) (fun _ => 2)
    (fun _ _ => 1) ⟨[0], fun _ => ConstraintFeasibility.INFEASIBLE_LOWER⟩ (fun _ => 0)
  exact ⟨h.1, h.2.1, h.2.2.1 0 1 rfl rfl, h.2.2.2.2.2 0⟩

/- ### C1: the fraction-to-boundary rule -/

/-- If the step factor respects the trial value `-tau*d/s` whenever `s < 0`,
the stepped distance `d + alpha*s` keeps at least the fraction `(1-tau)` of
the (positive) distance `d`. -/
theorem step_keeps_lower (alpha tau d s : ℚ) (htau : 0 < tau) (hd : 0 < d)
    (halpha : 0 < alpha) (hle : s < 0 → alpha ≤ -tau * d / s) :
    (1 - tau) * d ≤ d + alpha * s := by
  by_cases hs : s < 0
  · have h1 := hle hs
    have h2 : -tau * d / s * s ≤ alpha * s :=
      mul_le_mul_of_nonpos_right h1 (le_of_lt hs)
    rw [div_mul_cancel₀ _ (ne_of_lt hs)] at h2
    nlinarith
  · push_neg at hs
    have h3 : 0 ≤ alpha * s := mul_nonneg halpha.le hs
    nlinarith [mul_pos htau hd]

/-- Mirror image of `step_keeps_lower` for a negative distance `d` to an
upper bound. -/
theorem step_keeps_upper (alpha tau d s : ℚ) (htau : 0 < tau) (hd : d < 0)
    (halpha : 0 < alpha) (hle : 0 < s → alpha ≤ -tau * d / s) :
    d + alpha * s ≤ (1 - tau) * d := by
  by_cases hs : 0 < s
  · have h1 := hle hs
    have h2 : alpha * s ≤ -tau * d / s * s :=
      mul_le_mul_of_nonneg_right h1 (le_of_lt hs)
    rw [div_mul_cancel₀ _ (ne_of_gt hs)] at h2
    nlinarith
  · push_neg at hs
    have h3 : alpha * s ≤ 0 := mul_nonpos_of_nonneg_of_nonpos halpha.le hs
    nlinarith [mul_neg_of_pos_of_neg htau hd]

/-- C1: at a strictly interior iterate, with `tau = max(tau_min, 1 - mu)`
(`0 < tau_min < 1`, `0 < mu`), the primal and dual fraction-to-boundary
factors lie in `(0, 1]`; the truncated primal step keeps every listed
variable at distance at least `(1-tau)*(x_i - bound_i)` from its bound, and
the truncated dual step keeps every bound multiplier strictly on its sign
side of 0. -/
theorem fraction_to_boundary_spec (p : Problem) (x sol zL zU dzL dzU : ℕ → ℚ)
    (tau_min mu : ℚ)
    (htm0 : 0 < tau_min) (htm1 : tau_min < 1) (hmu : 0 < mu)
    (hxl : ∀ i ∈ p.lower_bounded, lbVal p i < x i)
    (hxu : ∀ i ∈ p.upper_bounded, x i < ubVal p i)
    (hzl : ∀ i ∈ p.lower_bounded, 0 < zL i)
    (hzu : ∀ i ∈ p.upper_bounded, zU i < 0) :
    0 < primal_fraction_to_boundary p x sol (max tau_min (1 - mu)) ∧
    primal_fraction_to_boundary p x sol (max tau_min (1 - mu)) ≤ 1 ∧
    0 < dual_fraction_to_boundary p zL zU dzL dzU (max tau_min (1 - mu)) ∧
    dual_fraction_to_boundary p zL zU dzL dzU (max tau_min (1 - mu)) ≤ 1 ∧
    (∀ i ∈ p.lower_bounded,
      (1 - max tau_min (1 - mu)) * (x i - lbVal p i)
        ≤ x i + primal_fraction_to_boundary p x sol (max tau_min (1 - mu)) * sol i
            - lbVal p i) ∧
    (∀ i ∈ p.upper_bounded,
      x i + primal_fraction_to_boundary p x sol (max tau_min (1 - mu)) * sol i - ubVal p i
        ≤ (1 - max tau_min (1 - mu)) * (x i - ubVal p i)) ∧
    (∀ i ∈ p.lower_bounded,
      0 < zL i + dual_fraction_to_boundary p zL zU dzL dzU (max tau_min (1 - mu)) * dzL i) ∧
    (∀ i ∈ p.upper_bounded,
      zU i + dual_fraction_to_boundary p zL zU dzL dzU (max tau_min (1 - mu)) * dzU i < 0) := by
  set tau : ℚ := max tau_min (1 - mu) with htau_def
  have htau0 : 0 < tau := lt_of_lt_of_le htm0 (le_max_left _ _)
  have htau1 : tau < 1 := max_lt htm1 (by linarith)
  have ep : primal_fraction_to_boundary p x sol tau
      = boundary_fold (fun i => -tau * (x i - ubVal p i) / sol i)
          (fun i => decide (0 < sol i)) p.upper_bounded
          (boundary_fold (fun i => -tau * (x i - lbVal p i) / sol i)
            (fun i => decide (sol i < 0)) p.lower_bounded 1) := rfl
  have ed : dual_fraction_to_boundary p zL zU dzL dzU tau
      = boundary_fold (fun i => -tau * zU i / dzU i)
          (fun i => decide (0 < dzU i)) p.upper_bounded
          (boundary_fold (fun i => -tau * zL i / dzL i)
            (fun i => decide (dzL i < 0)) p.lower_bounded 1) := rfl
  have hp_pos : 0 < primal_fraction_to_boundary p x sol tau := by
    rw [ep]
    exact boundary_fold_pos _ _ _ _ (boundary_fold_pos _ _ _ _ one_pos)
  have hp_le_one : primal_fraction_to_boundary p x sol tau ≤ 1 := by
    rw [ep]
    exact le_trans (boundary_fold_le_init _ _ _ _) (boundary_fold_le_init _ _ _ _)
  have hd_pos : 0 < dual_fraction_to_boundary p zL zU dzL dzU tau := by
    rw [ed]
    exact boundary_fold_pos _ _ _ _ (boundary_fold_pos _ _ _ _ one_pos)
  have hd_le_one : dual_fraction_to_boundary p zL zU dzL dzU tau ≤ 1 := by
    rw [ed]
    exact le_trans (boundary_fold_le_init _ _ _ _) (boundary_fold_le_init _ _ _ _)
  have hp_le_lower : ∀ i ∈ p.lower_bounded, sol i < 0 →
      primal_fraction_to_boundary p x sol tau ≤ -tau * (x i - lbVal p i) / sol i := by
    intro i hi hs
    have hdist : 0 < x i - lbVal p i := by have := hxl i hi; linarith
    have htrial : 0 < -tau * (x i - lbVal p i) / sol i :=
      div_pos_iff.mpr (Or.inr ⟨by nlinarith, hs⟩)
    rw [ep]
    refine le_trans (boundary_fold_le_init _ _ _ _) ?_
    exact boundary_fold_le_trial _ _ _ _ i hi (decide_eq_true hs) htrial
  have hp_le_upper : ∀ i ∈ p.upper_bounded, 0 < sol i →
      primal_fraction_to_boundary p x sol tau ≤ -tau * (x i - ubVal p i) / sol i := by
    intro i hi hs
    have hdist : x i - ubVal p i < 0 := by have := hxu i hi; linarith
    have htrial : 0 < -tau * (x i - ubVal p i) / sol i :=
      div_pos (by nlinarith) hs
    rw [ep]
    exact boundary_fold_le_trial _ _ _ _ i hi (decide_eq_true hs) htrial
  have hd_le_lower : ∀ i ∈ p.lower_bounded, dzL i < 0 →
      dual_fraction_to_boundary p zL zU dzL dzU tau ≤ -tau * zL i / dzL i := by
    intro i hi hs
    have htrial : 0 < -tau * zL i / dzL i :=
      div_pos_iff.mpr (Or.inr ⟨by nlinarith [hzl i hi], hs⟩)
    rw [ed]
    refine le_trans (boundary_fold_le_init _ _ _ _) ?_
    exact boundary_fold_le_trial _ _ _ _ i hi (decide_eq_true hs) htrial
  have hd_le_upper : ∀ i ∈ p.upper_bounded, 0 < dzU i →
      dual_fraction_to_boundary p zL zU dzL dzU tau ≤ -tau * zU i / dzU i := by
    intro i hi hs
    have htrial : 0 < -tau * zU i / dzU i :=
      div_pos (by nlinarith [hzu i hi]) hs
    rw [ed]
    exact boundary_fold_le_trial _ _ _ _ i hi (decide_eq_true hs) htrial
  refine ⟨hp_pos, hp_le_one, hd_pos, hd_le_one, ?_, ?_, ?_, ?_⟩
  · intro i hi
    have hdist : 0 < x i - lbVal p i := by have := hxl i hi; linarith
    have h := step_keeps_lower (primal_fraction_to_boundary p x sol tau) tau
      (x i - lbVal p i) (sol i) htau0 hdist hp_pos (hp_le_lower i hi)
    linarith
  · intro i hi
    have hdist : x i - ubVal p i < 0 := by have := hxu i hi; linarith
    have h := step_keeps_upper (primal_fraction_to_boundary p x sol tau) tau
      (x i - ubVal p i) (sol i) htau0 hdist hp_pos (hp_le_upper i hi)
    linarith
  · intro i hi
    have hz := hzl i hi
    have h := step_keeps_lower (dual_fraction_to_boundary p zL zU dzL dzU tau) tau
      (zL i) (dzL i) htau0 hz hd_pos (hd_le_lower i hi)
    nlinarith
  · intro i hi
    have hz := hzu i hi
    have h := step_keeps_upper (dual_fraction_to_boundary p zL zU dzL dzU tau) tau
      (zU i) (dzU i) htau0 hz hd_pos (hd_le_upper i hi)
    nlinarith

/-- Witness for C1: one lower-bounded variable at distance 1 from its bound,
step `-1`, `z_L = 1`, `dz_L = -1`, `tau_min = mu = 1/2` (so `tau = 1/2`). -/
theorem fraction_to_boundary_spec_witness :
    0 < primal_fraction_to_boundary lower_bounded_problem (fun _ => 1) (fun _ => -1)
        (max (1/2 : ℚ) (1 - 1/2)) ∧
    primal_fraction_to_boundary lower_bounded_problem (fun _ => 1) (fun _ => -1)
        (max (1/2 : ℚ) (1 - 1/2)) ≤ 1 ∧
    (1 - max (1/2 : ℚ) (1 - 1/2)) * (1 - lbVal lower_bounded_problem 0)
      ≤ 1 + primal_fraction_to_boundary lower_bounded_problem (fun _ => 1) (fun _ => -1)
          (max (1/2 : ℚ) (1 - 1/2)) * (-1) - lbVal lower_bounded_problem 0 ∧
    0 < 1 + dual_fraction_to_boundary lower_bounded_problem (fun _ => 1) (fun _ => 0)
        (fun _ => -1) (fun _ => 0) (max (1/2 : ℚ) (1 - 1/2)) * (-1) := by
  have h := fraction_to_boundary_spec lower_bounded_problem (fun _ => 1) (fun _ => -1)
    (fun _ => 1) (fun _ => 0) (fun _ => -1) (fun _ => 0) (1/2) (1/2)
    (by norm_num) (by norm_num) (by norm_num)
    (by decide) (by decide) (by decide) (by decide)
  exact ⟨h.1, h.2.1, h.2.2.2.2.1 0 (by decide), h.2.2.2.2.2.2.1 0 (by decide)⟩

/- ### C5: feasibility-problem entry and exit -/

/-- The barrier-parameter state owned by the IPM subproblem:
`barrier_parameter_update_strategy`'s current value, the saved
`previous_barrier_parameter` and the `solving_feasibility_problem` flag. -/
structure FeasibilityState where
  barrier_parameter : ℝ
  previous_barrier_parameter : ℝ
  solving_feasibility_problem : Bool

/-- `norm_inf` over the constraint values (fold of `max acc |v|` from 0). -/
noncomputable def norm_inf (constraints : List ℝ) : ℝ :=
  constraints.foldl (fun acc v => max acc |v|) 0

/-- `PrimalDualInteriorPointSubproblem::initialize_feasibility_problem`:
save the current barrier parameter, raise it to
`max(mu, ||c(x)||_inf)`, and set the feasibility flag. -/
noncomputable def initialize_feasibility_problem (s : FeasibilityState)
    (constraints : List ℝ) : FeasibilityState :=
  { barrier_parameter := max s.barrier_parameter (norm_inf constraints)
    previous_barrier_parameter := s.barrier_parameter
    solving_feasibility_problem := true }

/-- The closed-form elastic value computed by the closure in
`PrimalDualInteriorPointSubproblem::set_elastic_variable_values`:
`(mu_over_rho - jacobian_coefficient*c_j + sqrt(c_j^2 + mu_over_rho^2))/2`
with `rho = 1`. -/
noncomputable def elastic_variable_value (mu constraint_j jacobian_coefficient : ℝ) : ℝ :=
  (mu - jacobian_coefficient * constraint_j + Real.sqrt (constraint_j ^ 2 + mu ^ 2)) / 2

/-- Modelled from the spec: the call site `l1RelaxedProblem::set_elastic_variable_values`
(reformulation layer, not under src/) supplies the per-elastic jacobian
coefficient to the closure above; in the spec's convention
`c_j(x) + p_j − n_j ∈ [c_L_j, c_U_j]` the elastic `p_j` receives
coefficient `+1`, giving `p_j = (mu + sqrt(c_j^2 + mu^2) − c_j)/2`. -/
noncomputable def set_elastic_p (mu constraint_j : ℝ) : ℝ :=
  elastic_variable_value mu constraint_j 1

/-- Modelled from the spec: the elastic `n_j` receives jacobian
coefficient `−1` (the symmetric sign of `p_j`). -/
noncomputable def set_elastic_n (mu constraint_j : ℝ) : ℝ :=
  elastic_variable_value mu constraint_j (-1)

/-- `PrimalDualInteriorPointSubproblem::exit_feasibility_problem`: restore
the saved barrier parameter, clear the flag, and recompute least-squares
constraint multipliers (`Preprocessing::compute_least_square_multipliers`,
outside the embedded sources, passed in abstractly as `lsq_multipliers`). -/
noncomputable def exit_feasibility_problem (s : FeasibilityState)
    (lsq_multipliers : ℕ → ℝ) : FeasibilityState × (ℕ → ℝ) :=
  ({ barrier_parameter := s.previous_barrier_parameter
     previous_barrier_parameter := s.previous_barrier_parameter
     solving_feasibility_problem := false }, lsq_multipliers)

/-- A fold of `max` steps only grows its accumulator. -/
theorem le_foldl_max (l : List ℝ) (a : ℝ) : a ≤ l.foldl (fun acc v => max acc |v|) a := by
  induction l generalizing a with
  | nil => exact le_refl a
  | cons v l ih => exact le_trans (le_max_left a |v|) (ih (max a |v|))

/-- Every listed value is bounded by the infinity norm. -/
theorem abs_le_norm_inf (l : List ℝ) (v : ℝ) (hv : v ∈ l) : |v| ≤ norm_inf l := by
  unfold norm_inf
  generalize (0:ℝ) = a
  induction l generalizing a with
  | nil => cases hv
  | cons w l ih =>
    rcases List.mem_cons.mp hv with h | h
    · subst h
      exact le_trans (le_max_right a |v|) (le_foldl_max l (max a |v|))
    · exact ih h _

/-- With `0 < mu` and a unit-magnitude jacobian coefficient, the closed-form
elastic value is strictly positive. -/
theorem elastic_variable_value_pos (mu c coef : ℝ) (hmu : 0 < mu)
    (hcoef : coef = 1 ∨ coef = -1) : 0 < elastic_variable_value mu c coef := by
  have h1 : |c| ≤ Real.sqrt (c ^ 2 + mu ^ 2) := by
    rw [← Real.sqrt_sq_eq_abs]
    apply Real.sqrt_le_sqrt
    nlinarith
  have h2 : coef * c ≤ |c| := by
    rcases hcoef with h | h
    · rw [h, one_mul]
      exact le_abs_self c
    · rw [h, neg_one_mul]
      exact neg_le_abs c
  unfold elastic_variable_value
  have h3 : 0 < mu - coef * c + Real.sqrt (c ^ 2 + mu ^ 2) := by linarith
  linarith

/-- C5: entering the feasibility problem raises the barrier parameter to
`max(mu, ||c(x)||_inf)`; each elastic is initialized by the closed form
`p_j = (mu + sqrt(c_j^2 + mu^2) - c_j)/2` (symmetric sign for `n_j`), with
the elastic's lower-bound multiplier `mu/p_j`, both strictly positive; and
exiting restores the previous barrier parameter and replaces the constraint
multipliers with the recomputed least-squares estimates. -/
theorem feasibility_problem_entry_exit (s : FeasibilityState) (constraints : List ℝ)
    (lsq_multipliers : ℕ → ℝ) (hmu : 0 < s.barrier_parameter) :
    (initialize_feasibility_problem s constraints).barrier_parameter
      = max s.barrier_parameter (norm_inf constraints) ∧
    (initialize_feasibility_problem s constraints).solving_feasibility_problem = true ∧
    (∀ v ∈ constraints,
      |v| ≤ (initialize_feasibility_problem s constraints).barrier_parameter) ∧
    (∀ c : ℝ, set_elastic_p (initialize_feasibility_problem s constraints).barrier_parameter c
      = ((initialize_feasibility_problem s constraints).barrier_parameter
          + Real.sqrt (c ^ 2 + (initialize_feasibility_problem s constraints).barrier_parameter ^ 2)
          - c) / 2) ∧
    (∀ c : ℝ,
      0 < set_elastic_p (initialize_feasibility_problem s constraints).barrier_parameter c) ∧
    (∀ c : ℝ,
      0 < set_elastic_n (initialize_feasibility_problem s constraints).barrier_parameter c) ∧
    (∀ c : ℝ,
      0 < (initialize_feasibility_problem s constraints).barrier_parameter
          / set_elastic_p (initialize_feasibility_problem s constraints).barrier_parameter c) ∧
    (exit_feasibility_problem (initialize_feasibility_problem s constraints)
        lsq_multipliers).1.barrier_parameter = s.barrier_parameter ∧
    (exit_feasibility_problem (initialize_feasibility_problem s constraints)
        lsq_multipliers).1.solving_feasibility_problem = false ∧
    (exit_feasibility_problem (initialize_feasibility_problem s constraints)
        lsq_multipliers).2 = lsq_multipliers := by
  have hmu2 : 0 < (initialize_feasibility_problem s constraints).barrier_parameter :=
    lt_of_lt_of_le hmu (le_max_left _ _)
  refine ⟨rfl, rfl, ?_, ?_, ?_, ?_, ?_, rfl, rfl, rfl⟩
  · intro v hv
    exact le_trans (abs_le_norm_inf constraints v hv) (le_max_right _ _)
  · intro c
    unfold set_elastic_p elastic_variable_value
    ring
  · intro c
    exact elastic_variable_value_pos _ c 1 hmu2 (Or.inl rfl)
  · intro c
    exact elastic_variable_value_pos _ c (-1) hmu2 (Or.inr rfl)
  · intro c
    exact div_pos hmu2 (elastic_variable_value_pos _ c 1 hmu2 (Or.inl rfl))

/-- Witness for C5: state with barrier parameter 1, one zero constraint. -/
theorem feasibility_problem_entry_exit_witness :
    (initialize_feasibility_problem ⟨1, 1, false⟩ [0]).barrier_parameter
      = max 1 (norm_inf [0]) ∧
    (0:ℝ) < set_elastic_p (initialize_feasibility_problem ⟨1, 1, false⟩ [0]).barrier_parameter 0 ∧
    (exit_feasibility_problem (initialize_feasibility_problem ⟨1, 1, false⟩ [0])
        (fun _ => 0)).1.barrier_parameter = 1 := by
  have h := feasibility_problem_entry_exit ⟨1, 1, false⟩ [0] (fun _ => 0)
    (by show (0:ℝ) < 1; norm_num)
  exact ⟨h.1, h.2.2.2.2.1 0, h.2.2.2.2.2.2.2.1⟩
